import Mathlib

/-!
Verification of `maya_signatures/commands/scrape.py`: a shallow embedding of
the scraping command's parsing, caching and formatting logic, with theorems
settling the specified properties.
-/

namespace MayaSig

/-- Python's whitespace set for `str.strip()`: `' \t\n\r\x0b\x0c'`. -/
def pyIsSpace (c : Char) : Bool :=
  c = ' ' || c = '\t' || c = '\n' || c = '\r' || c = '\x0b' || c = '\x0c'

/-- `str.strip()` on a character list: drops Python whitespace at both ends. -/
def pyStrip (s : List Char) : List Char :=
  ((s.dropWhile pyIsSpace).reverse.dropWhile pyIsSpace).reverse

/-- `str.split(sep)` for a single-character separator, as in Python:
splits at every occurrence of `sep`; always returns at least one part. -/
def splitOnChar (sep : Char) : List Char → List (List Char)
  | [] => [[]]
  | c :: rest =>
    let parts := splitOnChar sep rest
    if c = sep then
      [] :: parts
    else
      match parts with
      | [] => [[c]]
      | p :: ps => (c :: p) :: ps

example : splitOnChar '(' "translate(t)".toList = ["translate".toList, "t)".toList] := by decide
example : splitOnChar '(' "".toList = [[]] := by decide
example : splitOnChar '(' "a(b(c".toList = [['a'], ['b'], ['c']] := by decide

/-- The body of the per-cell loop of `Scrape._parse_flag_table`: from one
non-colspan cell's raw text, the data elements it contributes.  Mirrors
`text = str(table_row.text.strip()).replace('\n', ' ')` followed by the
compound-cell branch (`len(text.split('(')) == 2 and not ' ' in text`) that
appends both parts with `t.replace(')', '')` applied, the nonempty branch
that appends `text` itself, and the implicit empty branch. -/
def cellElements (cellText : List Char) : List (List Char) :=
  let text := (pyStrip cellText).map fun c => if c = '\n' then ' ' else c
  if (splitOnChar '(' text).length == 2 && !text.contains ' ' then
    (splitOnChar '(' text).map (List.filter (fun c => !(c == ')')))
  else if !text.isEmpty then [text] else []

/-- Stripping one trailing `')'`, the operation the spec's words describe for
the second half of a compound cell. -/
def stripTrailingParen (p : List Char) : List Char :=
  if p.getLast? = some ')' then p.dropLast else p

/-- The per-cell rule as amended: after stripping and replacing newlines by
spaces, a cell whose text has exactly one `'('` and no space character
(other whitespace, e.g. a tab, is not checked) contributes the part before
the `'('` and the part after it, each with every `')'` removed; otherwise a
nonempty text contributes itself unchanged and an empty text contributes
nothing. -/
def cellElementsSpec (cellText : List Char) : List (List Char) :=
  let text := (pyStrip cellText).map fun c => if c = '\n' then ' ' else c
  if text.count '(' = 1 ∧ ¬ (' ' ∈ text) then
    [ (text.takeWhile (fun c => !(c == '('))).filter (fun c => !(c == ')')),
      ((text.dropWhile (fun c => !(c == '('))).tail).filter (fun c => !(c == ')')) ]
  else if text = [] then [] else [text]

/-- A `<td>` element as the parser sees it: its `colspan` attribute (if any)
and its rendered text. -/
structure TableCell where
  colspan : Option String
  text : List Char
deriving DecidableEq, Repr

/-- A `<table>` element as the parser sees it: the rendered text of its
`<tr>` list (what `unicode(table.find_all('tr'))` produces) and its `<td>`
cells in document order. -/
structure HtmlTable where
  rowsHtml : List Char
  cells : List TableCell
deriving DecidableEq, Repr

/-- Python's substring containment `needle in haystack`. -/
def containsSub (needle : List Char) : List Char → Bool
  | [] => needle.isEmpty
  | c :: rest => needle.isPrefixOf (c :: rest) || containsSub needle rest

/-- The literal header marker `'Long name (short name)'`. -/
def headerMarker : List Char := "Long name (short name)".toList

/-- The table filter of `Scrape._parse_flag_table`:
`'Long name (short name)' in unicode(table.find_all('tr'))`. -/
def hasMarker (t : HtmlTable) : Bool := containsSub headerMarker t.rowsHtml

/-- The cell loop of `Scrape._parse_flag_table`: iterate the selected
table's `<td>` cells, skip cells carrying a `colspan` attribute, and
accumulate each remaining cell's elements. -/
def tableData (cells : List TableCell) : List (List Char) :=
  cells.foldl (fun data cell =>
    if cell.colspan.isNone then data ++ cellElements cell.text else data) []

/-- The grouping step of `Scrape._parse_flag_table`:
`[data[x:x + 4] for x in range(0, len(data), 4)]`. -/
def pyChunks4 (data : List α) : List (List α) :=
  (List.range' 0 ((data.length + 3) / 4) 4).map fun x => (data.drop x).take 4

/-- Recursive form of the 4-chunking, used to reason about `pyChunks4`. -/
def chunksRec (l : List α) : List (List α) :=
  if h : l.isEmpty then [] else l.take 4 :: chunksRec (l.drop 4)
termination_by l.length
decreasing_by
  cases l with
  | nil => simp at h
  | cons a t => simp [List.length_drop]; omega

/-- Python error classes surfacing from the embedded operations. -/
inductive PyError where
  | valueError
  | indexError
  | keyError
deriving DecidableEq, Repr

/-- Table selection by `Scrape._parse_flag_table`: the `[0]` of the filtered
table list; an empty filter result raises `IndexError`. -/
def selectFlagTable (tables : List HtmlTable) : Except PyError HtmlTable :=
  match tables.filter hasMarker with
  | [] => .error .indexError
  | t :: _ => .ok t

/-- `Scrape._parse_flag_table` end to end: select the flag table, collect
its cell data (as strings), group into chunks of four. -/
def parseFlagTable (tables : List HtmlTable) : Except PyError (List (List String)) :=
  (selectFlagTable tables).map fun t => pyChunks4 ((tableData t.cells).map String.mk)

/-- One flag's record: the value stored under a flag name by
`Scrape._compile_flag_table`
(`{'short': short, 'data_type': data_type, 'description': description}`). -/
structure FlagRecord where
  short : String
  data_type : String
  description : String
deriving DecidableEq, Repr

/-- Lookup in a Python dict modelled as an association list with unique
keys. -/
def pyDictGet (d : List (String × α)) (k : String) : Option α :=
  match d with
  | [] => none
  | (k', v) :: rest => if k' == k then some v else pyDictGet rest k

/-- Python dict assignment `d[k] = v`: overwrite in place if the key is
present (keeping its position), append otherwise. -/
def pyDictSet (d : List (String × α)) (k : String) (v : α) : List (String × α) :=
  match d with
  | [] => [(k, v)]
  | (k', v') :: rest => if k' == k then (k, v) :: rest else (k', v') :: pyDictSet rest k v

/-- The body of the loop of `Scrape._compile_flag_table`: the four-way
unpacking `name, short, data_type, description = flag_data` raises
`ValueError` on a row whose length is not 4, and otherwise the row is
stored under its name. -/
def compileStep (flags : List (String × FlagRecord)) (flag_data : List String) :
    Except PyError (List (String × FlagRecord)) :=
  match flag_data with
  | [name, short, data_type, description] =>
    .ok (pyDictSet flags name ⟨short, data_type, description⟩)
  | _ => .error .valueError

/-- `Scrape._compile_flag_table`: fold the parsed rows into a flag
mapping. -/
def compileFlagTable (flag_data_set : List (List String)) :
    Except PyError (List (String × FlagRecord)) :=
  flag_data_set.foldlM compileStep []

/-- The data-type lookup table of `Scrape.build_command_stub`:
`{'boolean': 'bool', 'string': 'str', 'int': 'int'}`. -/
def lut : List (String × String) :=
  [("boolean", "bool"), ("string", "str"), ("int", "int")]

/-- The body of the flag loop of `Scrape.build_command_stub`: pick the long
or short name, append the short name in parentheses when `combined`, and
look the rendered type up in `lut` (`KeyError` when absent). -/
def stubStep (shortname combined : Bool) (kwargs : List String)
    (kv : String × FlagRecord) : Except PyError (List String) :=
  let flag := if !shortname then kv.1 else kv.2.short
  let flag := if combined then flag ++ "(" ++ kv.2.short ++ ")" else flag
  match pyDictGet lut kv.2.data_type with
  | none => .error .keyError
  | some ty => .ok (kwargs ++ [flag ++ "=" ++ ty])

/-- `Scrape.build_command_stub`: format a Python stub for a scraped command.
`command_signatures[command]` raises `KeyError` when the command is absent;
`lut[v['data_type']]` raises `KeyError` on an unknown data type;
`shortname` is forced to `False` when `combined` is set. -/
def buildCommandStub (command_signatures : List (String × List (String × FlagRecord)))
    (command : String) (shortname combined : Bool) : Except PyError String :=
  match pyDictGet command_signatures command with
  | none => .error .keyError
  | some sig =>
    let sn := if combined then false else shortname
    (sig.foldlM (stubStep sn combined) []).map
      fun kwargs =>
        "def " ++ command ++ "(*args, " ++ String.intercalate ", " kwargs ++ "):\n\tpass"

/-- The in-memory cache attached to the memoized `scrape_command`:
fetch URL → compiled flag mapping. -/
abbrev Cache := List (String × List (String × FlagRecord))

/-- The empty cache (the Python `{}`). -/
def Cache.empty : Cache := []

/-- `Scrape._read_tempfile`: open the cache file (absence raises `IOError`,
caught: the cache attribute is left untouched), `json.load` it (malformed
contents raise `ValueError`, caught: `data = {}`), and assign the result to
the cache.  `parse` stands for the external `json.load`; `file` is the cache
file's contents, `none` when the file is absent. -/
def readTempfile (parse : String → Option Cache) (file : Option String)
    (cache : Cache) : Cache :=
  match file with
  | none => cache
  | some contents =>
    match parse contents with
    | none => Cache.empty
    | some data => data

/-- The state `reset_cache` acts on: the persisted cache file (`none` when
absent), the in-memory cache of the memoized fetch, and the per-command
signature map. -/
structure ScrapeState where
  cacheFileContents : Option String
  memCache : Cache
  command_signatures : List (String × List (String × FlagRecord))

/-- `Scrape.reset_cache`: `open(self._CACHE_FILE, 'w').close()` creates or
truncates the cache file; nothing else is touched. -/
def reset_cache (st : ScrapeState) : ScrapeState :=
  { st with cacheFileContents := some "" }

/-- Modelled from the spec: the `KeyMemoized` decorator applied to
`scrape_command` lives in `maya_signatures/commands/cache.py`, which is not
among the provided sources.  Per the spec (§4.1), `get_or_compute(key,
compute_fn)` returns the stored value untouched on a cache hit and otherwise
invokes `compute_fn(key)`, stores the result under `key`, and returns it.
The third component counts invocations of `compute_fn` in this call. -/
def memoCall (cache : Cache) (compute : String → List (String × FlagRecord))
    (key : String) : List (String × FlagRecord) × Cache × Nat :=
  match pyDictGet cache key with
  | some v => (v, cache, 0)
  | none => (compute key, pyDictSet cache key (compute key), 1)

/-- JSON values as they occur in the cache: strings and objects. -/
inductive Json where
  | str : String → Json
  | obj : List (String × Json) → Json

/-- Lower-case hexadecimal digit. -/
def hexDigit (n : Nat) : Char :=
  if n < 10 then Char.ofNat (48 + n) else Char.ofNat (87 + n)

/-- Escape one character the way `json.dumps(..., ensure_ascii=False)`
does: only `'"'`, `'\'` and control characters below `0x20` are escaped;
everything else, non-ASCII included, passes through verbatim. -/
def escapeChar (c : Char) : List Char :=
  if c = '"' then ['\\', '"']
  else if c = '\\' then ['\\', '\\']
  else if c = '\n' then ['\\', 'n']
  else if c = '\t' then ['\\', 't']
  else if c = '\r' then ['\\', 'r']
  else if c.toNat = 8 then ['\\', 'b']
  else if c.toNat = 12 then ['\\', 'f']
  else if c.toNat < 32 then ['\\', 'u', '0', '0', hexDigit (c.toNat / 16), hexDigit (c.toNat % 16)]
  else [c]

/-- A JSON string literal with its quotes. -/
def encodeJsonString (s : String) : String :=
  String.mk ('"' :: (s.toList.map escapeChar).flatten ++ ['"'])

/-- The indentation produced by `indent=4` at the given nesting depth. -/
def pad (depth : Nat) : String := String.mk (List.replicate (4 * depth) ' ')

/-- Lexicographic `≤` on character lists by code point — Python's string
comparison. -/
def lexLeChars : List Char → List Char → Bool
  | [], _ => true
  | _ :: _, [] => false
  | a :: as, b :: bs => if a < b then true else if b < a then false else lexLeChars as bs

/-- Python's `≤` on strings. -/
def keyLe (a b : String) : Bool := lexLeChars a.toList b.toList

/-- Insert an item into an already key-sorted item list. -/
def insertByKey (kv : String × String) : List (String × String) → List (String × String)
  | [] => [kv]
  | x :: xs => if keyLe kv.1 x.1 then kv :: x :: xs else x :: insertByKey kv xs

/-- Sort an object's items by key: Python's `sorted(d.items())` as performed
by `json.dumps(..., sort_keys=True)`. -/
def sortByKey : List (String × String) → List (String × String)
  | [] => []
  | kv :: rest => insertByKey kv (sortByKey rest)

/-- Render an object's already-serialized items: sort by key
(`sort_keys=True`), then lay the items out with 4-space indentation. -/
def dumpsSortedItems (items : List (String × String)) (depth : Nat) : String :=
  let sorted := sortByKey items
  if sorted.isEmpty then "\x7b\x7d"
  else
    "\x7b\n" ++
      String.intercalate ",\n"
        (sorted.map fun kv => pad (depth + 1) ++ encodeJsonString kv.1 ++ ": " ++ kv.2) ++
      "\n" ++ pad depth ++ "\x7d"

mutual

/-- `json.dumps(value, ensure_ascii=False, indent=4, sort_keys=True)` at a
given nesting depth. -/
def pyDumpsVal : Json → Nat → String
  | .str s, _ => encodeJsonString s
  | .obj kvs, depth => dumpsSortedItems (pyDumpsItems kvs (depth + 1)) depth

/-- Serialize each value of an object's items at the given depth. -/
def pyDumpsItems : List (String × Json) → Nat → List (String × String)
  | [], _ => []
  | (k, v) :: rest, depth => (k, pyDumpsVal v depth) :: pyDumpsItems rest depth

end

/-- `json.dumps(cache, ensure_ascii=False, indent=4, sort_keys=True)` as
called by `Scrape._write_tempfile`. -/
def pyJsonDumps (j : Json) : String := pyDumpsVal j 0

/-- The two files `_write_tempfile` touches: the temporary file and the
cache file (each `none` when absent). -/
structure FsState where
  tempFile : Option String
  cacheFile : Option String
deriving DecidableEq, Repr

/-- `Scrape._write_tempfile` run to completion: dump the cache into a fresh
temporary file, then `shutil.copy` it over the cache file. -/
def writeTempfile (cache : Json) (_st : FsState) : FsState :=
  let payload := pyJsonDumps cache
  { tempFile := some payload, cacheFile := some payload }

/-- The possible contents of the cache file if the process dies at an
arbitrary point of `_write_tempfile`: until `shutil.copy` opens the
destination the previous contents survive; `shutil.copy` truncates the
destination and streams bytes, so a crash mid-copy leaves some prefix of
the payload. -/
def writeCrashContents (prev payload : String) : List String :=
  prev :: (List.range (payload.length + 1)).map fun k => String.mk (payload.toList.take k)

/-- The property the spec asserts of `save`: no crash point can leave the
cache file holding anything but the old or the new contents. -/
def crashSafe (prev payload : String) : Prop :=
  ∀ out ∈ writeCrashContents prev payload, out = prev ∨ out = payload

instance (prev payload : String) : Decidable (crashSafe prev payload) := by
  unfold crashSafe; infer_instance

/-! ## Lemmas about splitting and the per-cell rule -/

theorem splitOnChar_ne_nil (sep : Char) (l : List Char) : splitOnChar sep l ≠ [] := by
  induction l with
  | nil => simp [splitOnChar]
  | cons c rest ih =>
    simp only [splitOnChar]
    by_cases hc : c = sep
    · simp [hc]
    · simp only [if_neg hc]
      cases hsplit : splitOnChar sep rest with
      | nil => exact absurd hsplit ih
      | cons p ps => simp

theorem length_splitOnChar (sep : Char) (l : List Char) :
    (splitOnChar sep l).length = l.count sep + 1 := by
  induction l with
  | nil => simp [splitOnChar]
  | cons c rest ih =>
    simp only [splitOnChar]
    by_cases hc : c = sep
    · subst hc
      simp [List.count_cons, ih]
    · cases hsplit : splitOnChar sep rest with
      | nil => exact absurd hsplit (splitOnChar_ne_nil sep rest)
      | cons p ps =>
        rw [hsplit] at ih
        simp only [if_neg hc, List.count_cons, List.length_cons] at ih ⊢
        have hbeq : (c == sep) = false := by simpa using hc
        simp [hbeq, ih]

theorem splitOnChar_of_count_zero (sep : Char) (l : List Char) :
    l.count sep = 0 → splitOnChar sep l = [l] := by
  induction l with
  | nil => intro _; rfl
  | cons c rest ih =>
    intro h
    rw [List.count_cons] at h
    have hc : ¬ (c = sep) := by
      intro e; subst e; simp at h
    have h0 : rest.count sep = 0 := by
      rcases Nat.add_eq_zero.mp h with ⟨h0, _⟩; exact h0
    simp only [splitOnChar, if_neg hc, ih h0]

theorem splitOnChar_of_count_one (sep : Char) (l : List Char) :
    l.count sep = 1 →
      splitOnChar sep l =
        [l.takeWhile (fun c => !(c == sep)), (l.dropWhile (fun c => !(c == sep))).tail] := by
  induction l with
  | nil => intro h; simp at h
  | cons c rest ih =>
    intro h
    by_cases hc : c = sep
    · subst hc
      have h' : rest.count c + 1 = 1 := by simpa [List.count_cons] using h
      have h0 : rest.count c = 0 := by omega
      simp [splitOnChar, splitOnChar_of_count_zero _ _ h0, List.takeWhile_cons,
        List.dropWhile_cons]
    · have hbeq : (c == sep) = false := by simpa using hc
      have h1 : rest.count sep = 1 := by
        simpa [List.count_cons, hbeq] using h
      simp only [splitOnChar, if_neg hc, ih h1, List.takeWhile_cons, List.dropWhile_cons,
        hbeq]
      simp

/-- The compound-cell condition of the code, in propositional form. -/
theorem cellCond_iff (text : List Char) :
    ((splitOnChar '(' text).length == 2 && !text.contains ' ') = true ↔
      (text.count '(' = 1 ∧ ¬ (' ' ∈ text)) := by
  rw [Bool.and_eq_true, beq_iff_eq, length_splitOnChar, Bool.not_eq_true',
    List.contains_eq_any_beq]
  constructor
  · rintro ⟨h1, h2⟩
    refine ⟨by omega, ?_⟩
    intro hmem
    have : text.any (fun x => ' ' == x) = true := List.any_eq_true.mpr ⟨' ', hmem, by simp⟩
    simp [this] at h2
  · rintro ⟨h1, h2⟩
    refine ⟨by omega, ?_⟩
    rw [List.any_eq_false]
    intro x hx
    simp only [beq_iff_eq]
    intro e; subst e; exact h2 hx

theorem cellElements_eq_cellElementsSpec (t : List Char) :
    cellElements t = cellElementsSpec t := by
  unfold cellElements cellElementsSpec
  set text := (pyStrip t).map (fun c => if c = '\n' then ' ' else c) with htext
  by_cases hcond : (text.count '(' = 1 ∧ ¬ (' ' ∈ text))
  · rw [if_pos ((cellCond_iff text).mpr hcond), if_pos hcond,
      splitOnChar_of_count_one _ _ hcond.1]
    simp
  · rw [if_neg (fun h => hcond ((cellCond_iff text).mp h)), if_neg hcond]
    cases text with
    | nil => simp
    | cons c rest => simp

theorem tableData_go (cells : List TableCell) :
    ∀ acc : List (List Char),
      cells.foldl
        (fun data cell => if cell.colspan.isNone then data ++ cellElements cell.text else data)
        acc =
      acc ++ ((cells.filter fun c => c.colspan.isNone).map fun c => cellElements c.text).flatten := by
  induction cells with
  | nil => intro acc; simp
  | cons c cs ih =>
    intro acc
    simp only [List.foldl_cons]
    by_cases h : c.colspan = none
    · rw [ih]; simp [List.filter_cons, h, List.append_assoc]
    · obtain ⟨v, hv⟩ := Option.ne_none_iff_exists'.mp h
      rw [ih]; simp [List.filter_cons, hv]

/-- C2, corrected.  The per-cell rule of `_parse_flag_table`: after stripping
and replacing newlines by spaces, a cell whose text splits on `'('` into
exactly two parts and contains no space character (only `' '` is checked:
other whitespace such as a tab is not) contributes the two parts with every
`')'` removed from each — not merely a trailing `')'` stripped from the
second; otherwise a nonempty text contributes exactly one element unchanged
and an empty cell contributes nothing. -/
theorem claimC2 :
    (∀ t : List Char, cellElements t = cellElementsSpec t) ∧
    (∀ cells : List TableCell,
      tableData cells =
        ((cells.filter fun c => c.colspan.isNone).map fun c => cellElements c.text).flatten) ∧
    cellElements "translate(t)".toList = ["translate".toList, "t".toList] ∧
    cellElements "linear step function".toList = ["linear step function".toList] ∧
    cellElements "".toList = [] := by
  refine ⟨cellElements_eq_cellElementsSpec, ?_, by decide, by decide, by decide⟩
  intro cells
  unfold tableData
  simpa using tableData_go cells []

/-- C2, counterexample to the claim as stated.  For the cell text
`"x(y)z)"` (splits on `'('` into two parts, no whitespace) the code yields
`["x", "yz"]` — every `')'` is removed — while the claim promises the second
element with only its trailing `')'` stripped, i.e. `"y)z"`.  For the cell
text `"a\tb(c)"` (contains whitespace, but not a space character) the claim
promises one element unchanged, while the code treats it as a compound
cell. -/
theorem claimC2_cex :
    (cellElements "x(y)z)".toList = ["x".toList, "yz".toList] ∧
      ["x".toList, "yz".toList] ≠ ["x".toList, stripTrailingParen "y)z)".toList]) ∧
    (cellElements "a\tb(c)".toList = ["a\tb".toList, "c".toList] ∧
      ["a\tb".toList, "c".toList] ≠ ["a\tb(c)".toList]) := by
  decide

/-! ## Lemmas about the grouping step -/

theorem pyChunks4_nil : pyChunks4 ([] : List α) = [] := by
  simp [pyChunks4]

theorem chunkCount_pos_eq (n : Nat) (h : 1 ≤ n) : (n + 3) / 4 = ((n - 4) + 3) / 4 + 1 := by
  rcases Nat.lt_or_ge n 4 with h4 | h4
  · interval_cases n <;> rfl
  · obtain ⟨m, rfl⟩ : ∃ m, n = m + 4 := ⟨n - 4, by omega⟩
    simp only [Nat.add_sub_cancel]
    rw [show m + 4 + 3 = (m + 3) + 4 by omega, Nat.add_div_right _ (by norm_num)]

theorem pyChunks4_cons_eq (l : List α) (h : l ≠ []) :
    pyChunks4 l = l.take 4 :: pyChunks4 (l.drop 4) := by
  unfold pyChunks4
  have hlen : 1 ≤ l.length := List.length_pos.mpr h
  rw [List.length_drop, chunkCount_pos_eq l.length hlen, List.range'_succ, List.map_cons,
    List.drop_zero]
  congr 1
  have h2 : (0 : ℕ) + 4 = 4 + 0 := by omega
  rw [h2, ← List.map_add_range', List.map_map]
  congr 1
  funext x
  simp [List.drop_drop, Nat.add_comm]

theorem pyChunks4_eq_chunksRec (l : List α) : pyChunks4 l = chunksRec l := by
  induction l using chunksRec.induct with
  | case1 l hempty =>
    have he : l = [] := by simpa using hempty
    subst he
    rw [chunksRec]
    simp [pyChunks4_nil]
  | case2 l hne ih =>
    have hne' : l ≠ [] := by simpa using hne
    rw [pyChunks4_cons_eq l hne', ih]
    conv_rhs => rw [chunksRec]
    simp [hne]

theorem pyChunks4_flatten (l : List α) : (pyChunks4 l).flatten = l := by
  induction l using chunksRec.induct with
  | case1 l hempty =>
    have he : l = [] := by simpa using hempty
    subst he
    simp [pyChunks4_nil]
  | case2 l hne ih =>
    have hne' : l ≠ [] := by simpa using hne
    rw [pyChunks4_cons_eq l hne', List.flatten_cons, ih, List.take_append_drop]

theorem pyChunks4_bad_chunk (l : List α) :
    l.length % 4 ≠ 0 → ∃ c ∈ pyChunks4 l, c.length ≠ 4 := by
  induction l using chunksRec.induct with
  | case1 l hempty =>
    intro h
    have he : l = [] := by simpa using hempty
    subst he
    simp at h
  | case2 l hne ih =>
    intro h
    have hne' : l ≠ [] := by simpa using hne
    rw [pyChunks4_cons_eq l hne']
    by_cases h4 : l.length < 4
    · refine ⟨l.take 4, List.mem_cons_self _ _, ?_⟩
      have hpos : 0 < l.length := List.length_pos.mpr hne'
      simp only [List.length_take]
      omega
    · have h4' : 4 ≤ l.length := by omega
      have hmod : (l.drop 4).length % 4 ≠ 0 := by
        rw [List.length_drop]
        have e : l.length = (l.length - 4) + 4 := by omega
        rw [e, Nat.add_mod_right] at h
        exact h
      obtain ⟨c, hc, hlen⟩ := ih hmod
      exact ⟨c, List.mem_cons_of_mem _ hc, hlen⟩

/-- C4: the grouping step of `_parse_flag_table` produces the consecutive
4-chunks of the flat element sequence, in order: the chunks concatenate
back to the input; a sequence of length 8 yields exactly the two 4-element
chunks, and one of length 7 yields a full 4-element chunk followed by a
3-element remainder, with no error raised. -/
theorem claimC4 (data : List α) :
    (pyChunks4 data).flatten = data ∧
    (data.length = 8 → pyChunks4 data = [data.take 4, data.drop 4] ∧
      (data.take 4).length = 4 ∧ (data.drop 4).length = 4) ∧
    (data.length = 7 → pyChunks4 data = [data.take 4, data.drop 4] ∧
      (data.take 4).length = 4 ∧ (data.drop 4).length = 3) := by
  refine ⟨pyChunks4_flatten data, ?_, ?_⟩
  · intro h8
    have hne : data ≠ [] := by intro e; subst e; simp at h8
    have hd : (data.drop 4) ≠ [] := by
      intro e; rw [List.drop_eq_nil_iff_le] at e; omega
    have hdd : (data.drop 4).drop 4 = [] := by
      rw [List.drop_eq_nil_iff_le, List.length_drop]; omega
    have htake : (data.drop 4).length ≤ 4 := by rw [List.length_drop]; omega
    rw [pyChunks4_cons_eq data hne, pyChunks4_cons_eq _ hd, hdd, pyChunks4_nil,
      List.take_of_length_le htake]
    refine ⟨rfl, ?_, ?_⟩ <;> simp [List.length_take, List.length_drop, h8]
  · intro h7
    have hne : data ≠ [] := by intro e; subst e; simp at h7
    have hd : (data.drop 4) ≠ [] := by
      intro e; rw [List.drop_eq_nil_iff_le] at e; omega
    have hdd : (data.drop 4).drop 4 = [] := by
      rw [List.drop_eq_nil_iff_le, List.length_drop]; omega
    have htake : (data.drop 4).length ≤ 4 := by rw [List.length_drop]; omega
    rw [pyChunks4_cons_eq data hne, pyChunks4_cons_eq _ hd, hdd, pyChunks4_nil,
      List.take_of_length_le htake]
    refine ⟨rfl, ?_, ?_⟩ <;> simp [List.length_take, List.length_drop, h7]

/-- C4 witness: the grouping at concrete inputs of lengths 8 and 7. -/
theorem claimC4_witness :
    pyChunks4 (List.range 8) = [[0, 1, 2, 3], [4, 5, 6, 7]] ∧
    pyChunks4 (List.range 7) = [[0, 1, 2, 3], [4, 5, 6]] := by
  constructor
  · have h := (claimC4 (List.range 8)).2.1 (by simp)
    rw [h.1]; decide
  · have h := (claimC4 (List.range 7)).2.2 (by simp)
    rw [h.1]; decide

/-! ## Lemmas about the dict model and the flag compiler -/

theorem pyDictGet_pyDictSet (d : List (String × α)) (k : String) (v : α) (k' : String) :
    pyDictGet (pyDictSet d k v) k' = if k == k' then some v else pyDictGet d k' := by
  induction d with
  | nil => simp [pyDictSet, pyDictGet]
  | cons kv rest ih =>
    obtain ⟨k0, v0⟩ := kv
    simp only [pyDictSet]
    by_cases h0 : k0 = k
    · subst h0
      by_cases hkk : k0 = k'
      · subst hkk; simp [pyDictGet]
      · simp [pyDictGet, hkk]
    · rw [if_neg (by simpa using h0)]
      by_cases h1 : k0 = k'
      · subst h1
        have h2 : ¬ (k = k0) := fun e => h0 e.symm
        simp [pyDictGet, h2]
      · simp [pyDictGet, h1, ih]

theorem compileStep_error (acc : List (String × FlagRecord)) (r : List String)
    (h : r.length ≠ 4) : compileStep acc r = .error .valueError := by
  rcases r with _ | ⟨a, _ | ⟨b, _ | ⟨c, _ | ⟨d, _ | ⟨e, t⟩⟩⟩⟩⟩ <;>
    first
    | rfl
    | exact absurd rfl h

theorem compile_go_error (rows : List (List String)) :
    ∀ acc, (∃ r ∈ rows, r.length ≠ 4) →
      rows.foldlM compileStep acc = .error .valueError := by
  induction rows with
  | nil => rintro acc ⟨r, hr, _⟩; simp at hr
  | cons r0 rest ih =>
    rintro acc ⟨r, hr, hlen⟩
    rw [List.foldlM_cons]
    by_cases h0 : r0.length = 4
    · have hrrest : r ∈ rest := by
        rcases List.mem_cons.mp hr with h | h
        · subst h; exact absurd h0 hlen
        · exact h
      rcases r0 with _ | ⟨a, _ | ⟨b, _ | ⟨c, _ | ⟨d, _ | ⟨e, t⟩⟩⟩⟩⟩ <;> simp at h0
      exact ih _ ⟨r, hrrest, hlen⟩
    · rw [compileStep_error acc r0 h0]
      rfl

/-- C5: feeding `_compile_flag_table` any group list containing a group of
length other than 4 makes the four-way unpacking raise `ValueError`; in
particular the parse-then-compile pipeline on a flat element sequence whose
length is not a multiple of 4 (the truncated trailing group the parser
produces) raises rather than silently producing a truncated record. -/
theorem claimC5 :
    (∀ rows : List (List String), (∃ r ∈ rows, r.length ≠ 4) →
      compileFlagTable rows = .error .valueError) ∧
    (∀ elements : List String, elements.length % 4 ≠ 0 →
      compileFlagTable (pyChunks4 elements) = .error .valueError) := by
  constructor
  · intro rows h
    exact compile_go_error rows [] h
  · intro elements h
    obtain ⟨c, hc, hlen⟩ := pyChunks4_bad_chunk elements h
    exact compile_go_error _ [] ⟨c, hc, hlen⟩

/-- C5 witness: a 3-element group raises, and so does the compile of a
7-element flat sequence's chunking. -/
theorem claimC5_witness :
    compileFlagTable [["a", "b", "c"]] = .error .valueError ∧
    compileFlagTable (pyChunks4 ["a", "b", "c", "d", "e", "f", "g"]) = .error .valueError := by
  refine ⟨claimC5.1 _ ⟨["a", "b", "c"], by decide, by decide⟩, claimC5.2 _ (by decide)⟩

theorem compile_map_ok (rows : List (String × String × String × String)) :
    ∀ acc, (rows.map fun r => [r.1, r.2.1, r.2.2.1, r.2.2.2]).foldlM compileStep acc =
      .ok (rows.foldl (fun acc r => pyDictSet acc r.1 ⟨r.2.1, r.2.2.1, r.2.2.2⟩) acc) := by
  induction rows with
  | nil => intro acc; rfl
  | cons r rs ih =>
    intro acc
    rw [List.map_cons, List.foldlM_cons, List.foldl_cons]
    exact ih _

theorem foldl_set_lookup (rows : List (String × String × String × String)) :
    ∀ acc name,
      pyDictGet (rows.foldl (fun acc r => pyDictSet acc r.1 ⟨r.2.1, r.2.2.1, r.2.2.2⟩) acc) name =
      ((rows.reverse.find? fun r => r.1 == name).map fun r =>
        (⟨r.2.1, r.2.2.1, r.2.2.2⟩ : FlagRecord)).or (pyDictGet acc name) := by
  induction rows with
  | nil => intro acc name; simp
  | cons r rs ih =>
    intro acc name
    rw [List.foldl_cons, ih, List.reverse_cons, List.find?_append]
    by_cases h : r.1 = name
    · cases hf : rs.reverse.find? (fun r => r.1 == name) with
      | some x => simp [hf, pyDictGet_pyDictSet]
      | none => simp [hf, pyDictGet_pyDictSet, h]
    · have hbeq : (r.1 == name) = false := by simpa using h
      cases hf : rs.reverse.find? (fun r => r.1 == name) with
      | some x => simp [hf, pyDictGet_pyDictSet, hbeq]
      | none => simp [hf, pyDictGet_pyDictSet, hbeq]

/-- C6: on a sequence of 4-tuples, `_compile_flag_table` succeeds and
returns a mapping whose keys are exactly the names occurring in the
sequence, each bound to the short name, data type and description of its
last occurrence (later duplicates overwrite earlier ones) with the field
contents taken verbatim; and the spec's end-to-end example — a table whose
marker row is present, whose header cell carries a colspan, and whose data
cells read `"translate(t)"`, `"distance"`, `"linear distance value"` —
compiles to exactly the mapping of `"translate"` to that record. -/
theorem claimC6 (rows : List (String × String × String × String)) :
    ∃ flags, compileFlagTable (rows.map fun r => [r.1, r.2.1, r.2.2.1, r.2.2.2]) = .ok flags ∧
      (∀ name, pyDictGet flags name =
        (rows.reverse.find? fun r => r.1 == name).map fun r =>
          (⟨r.2.1, r.2.2.1, r.2.2.2⟩ : FlagRecord)) ∧
      (∀ name, (pyDictGet flags name).isSome ↔ name ∈ rows.map fun r => r.1) ∧
      (parseFlagTable
          [⟨"Long name (short name) Argument types Properties".toList,
            [⟨some "3", "Long name (short name) Argument types Properties".toList⟩,
             ⟨none, "translate(t)".toList⟩,
             ⟨none, "distance".toList⟩,
             ⟨none, "linear distance value".toList⟩]⟩]).bind compileFlagTable =
        .ok [("translate", ⟨"t", "distance", "linear distance value"⟩)] := by
  refine ⟨_, compile_map_ok rows [], ?_, ?_, by rfl⟩
  · intro name
    rw [foldl_set_lookup rows [] name]
    simp [pyDictGet]
  · intro name
    rw [foldl_set_lookup rows [] name]
    simp only [pyDictGet, Option.or_none]
    constructor
    · intro hs
      cases hf : rows.reverse.find? (fun r => r.1 == name) with
      | none => rw [hf] at hs; simp at hs
      | some r =>
        have hp := List.find?_some hf
        have hmem : r ∈ rows.reverse := List.mem_of_find?_eq_some hf
        exact List.mem_map.mpr ⟨r, List.mem_reverse.mp hmem, by simpa using hp⟩
    · intro hmem
      obtain ⟨r, hr, he⟩ := List.mem_map.mp hmem
      have hex : ∃ x ∈ rows.reverse, (fun r => r.1 == name) x = true :=
        ⟨r, List.mem_reverse.mpr hr, by simp [he]⟩
      have hsome := List.find?_isSome.mpr hex
      cases hf : rows.reverse.find? (fun r => r.1 == name) with
      | none => rw [hf] at hsome; simp at hsome
      | some x => simp

/-! ## Table selection, memoization, cache load, cache reset -/

theorem selectFlagTable_eq (tables : List HtmlTable) :
    selectFlagTable tables =
      (match tables.find? hasMarker with
       | some t => .ok t
       | none => .error .indexError) := by
  induction tables with
  | nil => rfl
  | cons t ts ih =>
    simp only [selectFlagTable, List.filter_cons, List.find?_cons]
    by_cases h : hasMarker t
    · simp [h]
    · have h' : hasMarker t = false := by simpa using h
      simp only [h', if_false, Bool.false_eq_true, cond_false]
      exact ih

/-- C7: `_parse_flag_table` selects the first table whose rendered row text
contains the literal marker `'Long name (short name)'` and extracts cells
from that table only; when no table matches, the `[0]` indexing fails with
an unrecoverable error (`IndexError`, the spec's ParseError-class
failure). -/
theorem claimC7 (tables : List HtmlTable) :
    (∀ t, tables.find? hasMarker = some t →
      parseFlagTable tables = .ok (pyChunks4 ((tableData t.cells).map String.mk))) ∧
    (tables.find? hasMarker = none → parseFlagTable tables = .error .indexError) := by
  constructor
  · intro t ht
    unfold parseFlagTable
    rw [selectFlagTable_eq, ht]
    rfl
  · intro hn
    unfold parseFlagTable
    rw [selectFlagTable_eq, hn]
    rfl

/-- C7 witness: of two tables both containing the marker the first is
parsed; a document with no matching table errors. -/
theorem claimC7_witness :
    parseFlagTable
        [⟨"r1 Long name (short name) x".toList, [⟨none, "translate(t)".toList⟩]⟩,
         ⟨"r2 Long name (short name) y".toList, [⟨none, "other".toList⟩]⟩] =
      .ok (pyChunks4 ((tableData [⟨none, "translate(t)".toList⟩]).map String.mk)) ∧
    parseFlagTable [⟨"no marker".toList, [⟨none, "x".toList⟩]⟩] = .error .indexError := by
  constructor
  · exact (claimC7 _).1 ⟨"r1 Long name (short name) x".toList,
      [⟨none, "translate(t)".toList⟩]⟩ (by decide)
  · exact (claimC7 _).2 (by decide)

/-- C1 (spec-modelled): the memoized fetch.  A key present in the cache is
answered from the cache — the stored value is returned, the cache is
unchanged, and the compute function is not invoked; a missing key invokes
the compute function once, stores the result under the key, and returns it;
hence two successive calls with the same key compute at most once — exactly
once from a cold cache — and return the identical value, the second call
performing no computation and leaving the cache unchanged. -/
theorem claimC1 (cache : Cache) (compute : String → List (String × FlagRecord))
    (key : String) :
    (∀ v, pyDictGet cache key = some v → memoCall cache compute key = (v, cache, 0)) ∧
    (pyDictGet cache key = none →
      memoCall cache compute key = (compute key, pyDictSet cache key (compute key), 1) ∧
      pyDictGet (pyDictSet cache key (compute key)) key = some (compute key)) ∧
    ((memoCall (memoCall cache compute key).2.1 compute key).1 =
        (memoCall cache compute key).1 ∧
      (memoCall (memoCall cache compute key).2.1 compute key).2.1 =
        (memoCall cache compute key).2.1 ∧
      (memoCall (memoCall cache compute key).2.1 compute key).2.2 = 0 ∧
      (memoCall cache compute key).2.2 +
        (memoCall (memoCall cache compute key).2.1 compute key).2.2 ≤ 1 ∧
      (pyDictGet cache key = none →
        (memoCall cache compute key).2.2 +
          (memoCall (memoCall cache compute key).2.1 compute key).2.2 = 1)) := by
  cases hget : pyDictGet cache key with
  | some v =>
    refine ⟨?_, ?_, ?_⟩
    · intro v' hv'
      cases hv'
      simp [memoCall, hget]
    · intro hn
      simp at hn
    · simp [memoCall, hget]
  | none =>
    have hset : pyDictGet (pyDictSet cache key (compute key)) key = some (compute key) := by
      rw [pyDictGet_pyDictSet]
      simp
    refine ⟨?_, ?_, ?_⟩
    · intro v hv
      simp at hv
    · intro _
      exact ⟨by simp [memoCall, hget], hset⟩
    · simp [memoCall, hget, hset]

/-- C1 witness: a cache hit answers from the cache without computing; a
cold key computes once and stores the result. -/
theorem claimC1_witness :
    memoCall [("u", [("translate", ⟨"t", "boolean", "d"⟩)])] (fun _ => []) "u" =
      ([("translate", ⟨"t", "boolean", "d"⟩)],
        [("u", [("translate", ⟨"t", "boolean", "d"⟩)])], 0) ∧
    memoCall [] (fun _ => [("x", ⟨"s", "int", "e"⟩)]) "w" =
      ([("x", ⟨"s", "int", "e"⟩)], [("w", [("x", ⟨"s", "int", "e"⟩)])], 1) := by
  constructor
  · exact (claimC1 _ _ _).1 _ (by decide)
  · exact ((claimC1 _ _ _).2.1 (by decide)).1

/-- C3 counterexample: with the cache file absent, `_read_tempfile` catches
the `IOError` and leaves the in-memory cache as it was — a nonempty prior
cache stays nonempty, while the claim promises an empty cache. -/
theorem claimC3_cex :
    readTempfile (fun _ => none) none [("u", [("f", ⟨"s", "boolean", "d"⟩)])] =
      [("u", [("f", ⟨"s", "boolean", "d"⟩)])] ∧
    readTempfile (fun _ => none) none [("u", [("f", ⟨"s", "boolean", "d"⟩)])] ≠
      Cache.empty := by
  exact ⟨rfl, by decide⟩

/-- C3 (amended): `_read_tempfile` replaces the in-memory cache with the
parsed contents when the file exists and parses, replaces it with the empty
cache when the file exists but its contents are malformed, and leaves the
prior in-memory cache untouched — not necessarily empty — when the file is
absent; no error is raised in any case. -/
theorem claimC3 (parse : String → Option Cache) (file : Option String) (cache : Cache) :
    (∀ s data, file = some s → parse s = some data →
      readTempfile parse file cache = data) ∧
    (∀ s, file = some s → parse s = none →
      readTempfile parse file cache = Cache.empty) ∧
    (file = none → readTempfile parse file cache = cache) := by
  refine ⟨?_, ?_, ?_⟩
  · rintro s data rfl hp
    simp [readTempfile, hp]
  · rintro s rfl hp
    simp [readTempfile, hp]
  · rintro rfl
    rfl

/-- C3 witness: a parsed file replaces the cache; a malformed file empties
it. -/
theorem claimC3_witness :
    readTempfile (fun _ => some [("k", [])]) (some "txt") [] = [("k", [])] ∧
    readTempfile (fun _ => none) (some "bad json") [("k", [])] = Cache.empty := by
  exact ⟨(claimC3 _ _ _).1 "txt" _ rfl rfl, (claimC3 _ _ _).2.1 "bad json" rfl rfl⟩

/-- C10: `reset_cache` truncates the persisted cache file to empty contents
and touches nothing else — the in-memory cache and the per-command
signature map are unchanged. -/
theorem claimC10 (st : ScrapeState) :
    (reset_cache st).cacheFileContents = some "" ∧
    (reset_cache st).memCache = st.memCache ∧
    (reset_cache st).command_signatures = st.command_signatures :=
  ⟨rfl, rfl, rfl⟩

/-! ## The stub builder -/

theorem stub_go_error (sn cb : Bool) (sig : List (String × FlagRecord)) :
    ∀ kwargs, (∃ kv ∈ sig, pyDictGet lut kv.2.data_type = none) →
      sig.foldlM (stubStep sn cb) kwargs = .error .keyError := by
  induction sig with
  | nil => rintro kwargs ⟨kv, h, _⟩; simp at h
  | cons kv0 rest ih =>
    rintro kwargs ⟨kv, hmem, hbad⟩
    rw [List.foldlM_cons]
    cases hlut : pyDictGet lut kv0.2.data_type with
    | none =>
      have hstep : stubStep sn cb kwargs kv0 = .error .keyError := by
        simp [stubStep, hlut]
      rw [hstep]
      rfl
    | some ty =>
      obtain ⟨out, hout⟩ : ∃ o, stubStep sn cb kwargs kv0 = .ok o := by
        simp only [stubStep, hlut]
        exact ⟨_, rfl⟩
      rw [hout]
      have hkv : kv ∈ rest := by
        rcases List.mem_cons.mp hmem with h | h
        · subst h; rw [hlut] at hbad; cases hbad
        · exact h
      exact ih out ⟨kv, hkv, hbad⟩

theorem stub_go_ok (sn cb : Bool) (sig : List (String × FlagRecord)) :
    ∀ kwargs, (∀ kv ∈ sig, (pyDictGet lut kv.2.data_type).isSome) →
      ∃ out, sig.foldlM (stubStep sn cb) kwargs = .ok out := by
  induction sig with
  | nil => intro kwargs _; exact ⟨kwargs, rfl⟩
  | cons kv0 rest ih =>
    intro kwargs hall
    have h0 := hall kv0 (List.mem_cons_self _ _)
    obtain ⟨ty, hty⟩ := Option.isSome_iff_exists.mp h0
    rw [List.foldlM_cons]
    obtain ⟨out, hstep⟩ : ∃ o, stubStep sn cb kwargs kv0 = .ok o := by
      simp only [stubStep, hty]
      exact ⟨_, rfl⟩
    rw [hstep]
    exact ih out fun kv hk => hall kv (List.mem_cons_of_mem _ hk)

/-- C9: `build_command_stub`.  With every flag's data type in the fixed
`{boolean → bool, string → str, int → int}` table the result is the text
`def <command>(*args, <flag>=<type>, ...):` with a `pass` body — the spec's
example signature yields `def move(*args, translate=bool):\n\tpass`; a flag
whose data type is outside the table raises `KeyError`; and with `combined`
set the long and short names are both displayed and the `shortname` flag is
ignored. -/
theorem claimC9 :
    buildCommandStub [("move", [("translate", ⟨"t", "boolean", "linear distance value"⟩)])]
        "move" false false = .ok "def move(*args, translate=bool):\n\tpass" ∧
    (∀ sigs cmd sig sn cb, pyDictGet sigs cmd = some sig →
      (∀ kv ∈ sig, (pyDictGet lut kv.2.data_type).isSome) →
      ∃ s, buildCommandStub sigs cmd sn cb =
        .ok ("def " ++ cmd ++ "(*args, " ++ s ++ "):\n\tpass")) ∧
    (∀ sigs cmd sig sn cb, pyDictGet sigs cmd = some sig →
      (∃ kv ∈ sig, pyDictGet lut kv.2.data_type = none) →
      buildCommandStub sigs cmd sn cb = .error .keyError) ∧
    (∀ sigs cmd sn sn', buildCommandStub sigs cmd sn true = buildCommandStub sigs cmd sn' true) ∧
    buildCommandStub [("move", [("translate", ⟨"t", "boolean", "linear distance value"⟩)])]
        "move" true true = .ok "def move(*args, translate(t)=bool):\n\tpass" := by
  refine ⟨by rfl, ?_, ?_, ?_, by rfl⟩
  · intro sigs cmd sig sn cb hsig hall
    simp only [buildCommandStub, hsig]
    obtain ⟨out, hout⟩ := stub_go_ok (if cb then false else sn) cb sig [] hall
    rw [hout]
    exact ⟨String.intercalate ", " out, rfl⟩
  · intro sigs cmd sig sn cb hsig hbad
    simp only [buildCommandStub, hsig]
    rw [stub_go_error (if cb then false else sn) cb sig [] hbad]
    rfl
  · intro sigs cmd sn sn'
    rfl

/-- C9 witness: a known data type produces a stub of the stated shape; an
unknown data type raises `KeyError`. -/
theorem claimC9_witness :
    (∃ s, buildCommandStub [("mv", [("flag", ⟨"f", "string", "d"⟩)])] "mv" false false =
      .ok ("def " ++ "mv" ++ "(*args, " ++ s ++ "):\n\tpass")) ∧
    buildCommandStub [("mv", [("flag", ⟨"f", "vector3", "d"⟩)])] "mv" false false =
      .error .keyError := by
  constructor
  · exact claimC9.2.1 [("mv", [("flag", ⟨"f", "string", "d"⟩)])] "mv"
      [("flag", ⟨"f", "string", "d"⟩)] false false (by decide) (by decide)
  · exact claimC9.2.2.1 [("mv", [("flag", ⟨"f", "vector3", "d"⟩)])] "mv"
      [("flag", ⟨"f", "vector3", "d"⟩)] false false (by decide)
      ⟨("flag", ⟨"f", "vector3", "d"⟩), by decide, by decide⟩

/-! ## The JSON serializer and the cache write -/

theorem lexLeChars_total (as bs : List Char) :
    lexLeChars as bs = true ∨ lexLeChars bs as = true := by
  induction as generalizing bs with
  | nil => left; rfl
  | cons a as ih =>
    cases bs with
    | nil => right; rfl
    | cons b bs' =>
      rcases lt_trichotomy a b with h | h | h
      · left; simp [lexLeChars, h]
      · subst h
        rcases ih bs' with h | h
        · left; simpa [lexLeChars, lt_irrefl] using h
        · right; simpa [lexLeChars, lt_irrefl] using h
      · right; simp [lexLeChars, h]

theorem lexLeChars_trans (as bs cs : List Char) :
    lexLeChars as bs = true → lexLeChars bs cs = true → lexLeChars as cs = true := by
  induction as generalizing bs cs with
  | nil => intro _ _; rfl
  | cons a as ih =>
    cases bs with
    | nil => intro h _; simp [lexLeChars] at h
    | cons b bs' =>
      cases cs with
      | nil => intro _ h; simp [lexLeChars] at h
      | cons c cs' =>
        intro h1 h2
        rcases lt_trichotomy a b with hab | hab | hab
        · rcases lt_trichotomy b c with hbc | hbc | hbc
          · have hac : a < c := lt_trans hab hbc
            simp [lexLeChars, hac]
          · subst hbc; simp [lexLeChars, hab]
          · have hnbc : ¬ b < c := lt_asymm hbc
            simp [lexLeChars, hnbc, hbc] at h2
        · subst hab
          rcases lt_trichotomy a c with hac | hac | hac
          · simp [lexLeChars, hac]
          · subst hac
            simp only [lexLeChars, lt_irrefl, if_false] at h1 h2 ⊢
            exact ih bs' cs' h1 h2
          · have hnac : ¬ a < c := lt_asymm hac
            simp [lexLeChars, hnac, hac] at h2
        · have hnab : ¬ a < b := lt_asymm hab
          simp [lexLeChars, hnab, hab] at h1

theorem keyLe_total (a b : String) : keyLe a b = true ∨ keyLe b a = true :=
  lexLeChars_total _ _

theorem keyLe_trans {a b c : String} :
    keyLe a b = true → keyLe b c = true → keyLe a c = true :=
  lexLeChars_trans _ _ _

theorem insertByKey_perm (kv : String × String) (l : List (String × String)) :
    (insertByKey kv l).Perm (kv :: l) := by
  induction l with
  | nil => simp [insertByKey]
  | cons x xs ih =>
    rw [insertByKey]
    by_cases hle : keyLe kv.1 x.1
    · rw [if_pos hle]
    · rw [if_neg hle]
      exact List.Perm.trans (List.Perm.cons x ih) (List.Perm.swap kv x xs)

theorem insertByKey_pairwise (kv : String × String) (l : List (String × String))
    (h : l.Pairwise fun x y => keyLe x.1 y.1 = true) :
    (insertByKey kv l).Pairwise fun x y => keyLe x.1 y.1 = true := by
  induction l with
  | nil => simp [insertByKey]
  | cons x xs ih =>
    rw [insertByKey]
    rw [List.pairwise_cons] at h
    obtain ⟨hx, hxs⟩ := h
    by_cases hle : keyLe kv.1 x.1
    · rw [if_pos hle, List.pairwise_cons]
      refine ⟨?_, List.pairwise_cons.mpr ⟨hx, hxs⟩⟩
      intro y hy
      rcases List.mem_cons.mp hy with rfl | hy'
      · exact hle
      · exact keyLe_trans hle (hx y hy')
    · rw [if_neg hle, List.pairwise_cons]
      constructor
      · intro y hy
        have hmem : y ∈ kv :: xs := (insertByKey_perm kv xs).mem_iff.mp hy
        rcases List.mem_cons.mp hmem with rfl | hy'
        · rcases keyLe_total y.1 x.1 with h | h
          · exact absurd h hle
          · exact h
        · exact hx y hy'
      · exact ih hxs

theorem sortByKey_pairwise (l : List (String × String)) :
    (sortByKey l).Pairwise fun x y => keyLe x.1 y.1 = true := by
  induction l with
  | nil => simp [sortByKey]
  | cons kv rest ih => exact insertByKey_pairwise kv (sortByKey rest) ih

theorem sortByKey_perm (l : List (String × String)) : (sortByKey l).Perm l := by
  induction l with
  | nil => simp [sortByKey]
  | cons kv rest ih =>
    exact List.Perm.trans (insertByKey_perm kv (sortByKey rest)) (List.Perm.cons kv ih)

theorem escapeChar_eq_self (c : Char) (h : 32 ≤ c.toNat) (hq : c ≠ '"') (hb : c ≠ '\\') :
    escapeChar c = [c] := by
  have h2 : ¬ c = '\n' := by intro e; subst e; exact absurd h (by decide)
  have h3 : ¬ c = '\t' := by intro e; subst e; exact absurd h (by decide)
  have h4 : ¬ c = '\r' := by intro e; subst e; exact absurd h (by decide)
  have h5 : ¬ c.toNat = 8 := by omega
  have h6 : ¬ c.toNat = 12 := by omega
  have h7 : ¬ c.toNat < 32 := by omega
  simp [escapeChar, hq, hb, h2, h3, h4, h5, h6, h7]

theorem writeCrash_empty_mem (prev payload : String) :
    "" ∈ writeCrashContents prev payload := by
  unfold writeCrashContents
  refine List.mem_cons_of_mem _ (List.mem_map.mpr ⟨0, ?_, rfl⟩)
  exact List.mem_range.mpr (by omega)

/-- C8 (amended): `_write_tempfile` serializes the full in-memory cache with
keys in sorted order (the sort is a permutation: every entry is kept, none
invented), 4-space indentation, and non-ASCII characters passed through
unescaped, writes the payload to a fresh temporary file, and then copies —
not atomically renames — it over the cache file: the copy truncates the
destination and streams bytes, so a crash mid-copy can leave the cache file
holding neither the old nor the new contents (e.g. empty). -/
theorem claimC8 :
    (∀ (cache : Json) (st : FsState),
      (writeTempfile cache st).cacheFile = some (pyJsonDumps cache) ∧
      (writeTempfile cache st).tempFile = some (pyJsonDumps cache)) ∧
    (∀ items : List (String × String),
      ((sortByKey items).Pairwise fun x y => keyLe x.1 y.1 = true) ∧
      (sortByKey items).Perm items) ∧
    (∀ c : Char, 32 ≤ c.toNat → c ≠ '"' → c ≠ '\\' → escapeChar c = [c]) ∧
    pyJsonDumps (Json.obj [("a", Json.str "b")]) = "\x7b\n    \"a\": \"b\"\n\x7d" ∧
    (∀ prev payload : String, prev ≠ "" → payload ≠ "" → ¬ crashSafe prev payload) := by
  refine ⟨fun cache st => ⟨rfl, rfl⟩,
    fun items => ⟨sortByKey_pairwise items, sortByKey_perm items⟩,
    escapeChar_eq_self, by rfl, ?_⟩
  intro prev payload hp hq hsafe
  rcases hsafe "" (writeCrash_empty_mem prev payload) with h | h
  · exact hp h.symm
  · exact hq h.symm

/-- C8 counterexample: with a concrete previous cache file `"\x7b\x7d"` and
a concrete cache to save, some crash point during `_write_tempfile` leaves
the cache file holding neither the previous nor the new contents — the
write-to-temp-then-`shutil.copy` sequence is not an atomic replace. -/
theorem claimC8_cex :
    ¬ crashSafe "\x7b\x7d"
      (pyJsonDumps (Json.obj [("u", Json.obj [("f", Json.str "x")])])) := by
  decide

/-- C8 witness: a non-ASCII character survives escaping, and a concrete
crash corrupts a concrete previous file. -/
theorem claimC8_witness :
    escapeChar 'ю' = ['ю'] ∧ ¬ crashSafe "\x7b\x7d" "\x7b\n\x7d" := by
  constructor
  · exact claimC8.2.2.1 'ю' (by decide) (by decide) (by decide)
  · exact claimC8.2.2.2.2 "\x7b\x7d" "\x7b\n\x7d" (by decide) (by decide)

end MayaSig
